import Mathlib

/-!
Verification of the mloader naming/export core: a shallow embedding of
src/mloader/utils.py and src/mloader/exporter.py.

Strings are modelled as Lean `String`s (lists of characters).  Python's
case conversions (`str.lower`, `str.upper`, `str.title`,
`str.capitalize`) map one character to a string of characters; the
tables carried here are exact on ASCII and on the dotted capital I
(U+0130, whose lowercase expands to "i" plus the combining dot above
U+0307, the expanding mapping that breaks the idempotence of the
sanitizer); all other characters are left unchanged and treated as
uncased, a documented restriction of the full Unicode tables.  The
`ascii*` definitions are the ASCII fragment of those conversions, used
to prove the idempotence of the sanitizer on ASCII input, where the
fragment coincides with Python exactly.  Stateful exporters are
modelled by explicit state records threaded through their operations,
with the on-disk filesystem as an association list from paths to file
contents.
-/

namespace Mloader

/-- ASCII uppercase letter test (codes 65-90). -/
def isAsciiUpper (c : Char) : Bool := 65 ≤ c.toNat && c.toNat ≤ 90

/-- ASCII lowercase letter test (codes 97-122). -/
def isAsciiLower (c : Char) : Bool := 97 ≤ c.toNat && c.toNat ≤ 122

/-- The ASCII fragment of per-character lowercasing; on characters
outside the A-Z range it is the identity. -/
def asciiLower (c : Char) : Char :=
  if isAsciiUpper c then Char.ofNat (c.toNat + 32) else c

/-- The ASCII fragment of per-character uppercasing; on characters
outside the a-z range it is the identity. -/
def asciiUpper (c : Char) : Char :=
  if isAsciiLower c then Char.ofNat (c.toNat - 32) else c

/-- The ASCII fragment of the "cased character" test: an ASCII letter. -/
def asciiIsCased (c : Char) : Bool := isAsciiUpper c || isAsciiLower c

/-- Python whitespace (ASCII): space, tab, newline, carriage return, form feed, vertical tab. -/
def pyIsSpace (c : Char) : Bool :=
  c.toNat == 32 || c.toNat == 9 || c.toNat == 10 ||
  c.toNat == 13 || c.toNat == 12 || c.toNat == 11

/-- ASCII digit test. -/
def pyIsDigit (c : Char) : Bool := 48 ≤ c.toNat && c.toNat ≤ 57

/-- The apostrophe character (code 39). -/
def aposChar : Char := Char.ofNat 39

/-- The opening curly brace character (code 123). -/
def openBrace : Char := Char.ofNat 123

/-- The closing curly brace character (code 125). -/
def closeBrace : Char := Char.ofNat 125

/-- The backtick character (code 96). -/
def backquoteChar : Char := Char.ofNat 96

/-- The combining dot above (U+0307), produced by lowercasing the
dotted capital I; it is a mark, not a cased letter. -/
def combiningDot : Char := Char.ofNat 775

/-- The dotted capital I (U+0130), an uppercase letter whose Python
lowercase expands to two characters: "i" followed by U+0307. -/
def dottedCapitalI : Char := Char.ofNat 304

/-- Python per-character lowercasing (str.lower maps each character
independently, possibly to several characters).  Exact on ASCII and on
the dotted capital I; every other character is left unchanged - a
restriction of the full Unicode case tables. -/
def pyLowerC (c : Char) : List Char :=
  if c = dottedCapitalI then ['i', combiningDot] else [asciiLower c]

/-- Python per-character uppercasing / titlecasing (the two coincide on
the modelled fragment).  Exact on ASCII and on the dotted capital I
(which is its own uppercase and titlecase); every other character is
left unchanged - a restriction of the full Unicode case tables. -/
def pyUpperC (c : Char) : List Char := [asciiUpper c]

/-- Python "cased character" test: ASCII letters and the dotted
capital I on the modelled fragment; the combining dot above is a mark
and is not cased. -/
def pyIsCasedC (c : Char) : Bool := asciiIsCased c || c == dottedCapitalI

/-- The ASCII fragment of str.capitalize: first character uppercased,
all others lowercased. -/
def asciiCapitalize (s : List Char) : List Char :=
  match s with
  | [] => []
  | c :: cs => asciiUpper c :: cs.map asciiLower

/-- The ASCII fragment of the str.title scanner: a cased character is
uppercased when the previous character was not cased and lowercased
otherwise; uncased characters pass through and reset the flag. -/
def asciiTitleAux : Bool → List Char → List Char
  | _, [] => []
  | prevCased, c :: cs =>
    if asciiIsCased c then
      (if prevCased then asciiLower c else asciiUpper c) :: asciiTitleAux true cs
    else
      c :: asciiTitleAux false cs

/-- The ASCII fragment of str.title. -/
def asciiTitle (s : List Char) : List Char := asciiTitleAux false s

/-- Python str.capitalize: first character titlecased, every other
character lowercased. -/
def pyCapitalizeC : List Char → List Char
  | [] => []
  | c :: cs => pyUpperC c ++ cs.flatMap pyLowerC

/-- Python str.title scanner: a cased character is lowercased when the
previous character was cased and titlecased otherwise; uncased
characters pass through unchanged and reset the flag, which is carried
from the original characters. -/
def pyTitleAuxC : Bool → List Char → List Char
  | _, [] => []
  | prevCased, c :: cs =>
    if pyIsCasedC c then
      (if prevCased then pyLowerC c else pyUpperC c) ++ pyTitleAuxC true cs
    else
      c :: pyTitleAuxC false cs

/-- Python str.title. -/
def pyTitleC (s : List Char) : List Char := pyTitleAuxC false s

/-- Python substring containment (the `in` operator on strings). -/
def containsSub : List Char → List Char → Bool
  | pat, [] => pat.isEmpty
  | pat, c :: cs => pat.isPrefixOf (c :: cs) || containsSub pat cs

/-- utils.py is_oneshot: for each of the two fields independently,
lowercase it and test whether it contains both "one" and "shot". -/
def is_oneshot (chapter_name chapter_sub_title : String) : Bool :=
  [chapter_name, chapter_sub_title].any fun nm =>
    let low := nm.data.flatMap pyLowerC
    containsSub "one".data low && containsSub "shot".data low

/-- Accumulate the value of a list of decimal digits. -/
def digitsVal (ds : List Char) : Nat :=
  ds.foldl (fun a c => 10 * a + (c.toNat - 48)) 0

/-- The tail of a Python int literal after its first digit: digits with
single underscores allowed between digits.  Returns the digits with
underscores removed, or none if malformed. -/
def pyDigitsRest : List Char → Option (List Char)
  | [] => some []
  | c :: cs =>
    if pyIsDigit c then (pyDigitsRest cs).map (fun ds => c :: ds)
    else if c == '_' then
      match cs with
      | [] => none
      | d :: cs2 =>
        if pyIsDigit d then (pyDigitsRest cs2).map (fun ds => d :: ds) else none
    else none

/-- Strip characters satisfying p from both ends of a list
(Python str.strip with a character set). -/
def stripEnds (p : Char → Bool) (l : List Char) : List Char :=
  ((l.dropWhile p).reverse.dropWhile p).reverse

/-- Python int(string): optional surrounding whitespace, an optional
sign, then a nonempty digit sequence (underscores allowed between
digits); any other shape raises ValueError, modelled as none. -/
def pyParseInt (s : String) : Option Int :=
  let l := stripEnds pyIsSpace s.data
  let signBody : Option (Bool × List Char) :=
    match l with
    | [] => none
    | c :: cs =>
      if c == '-' then some (true, cs)
      else if c == '+' then some (false, cs)
      else some (false, l)
  match signBody with
  | none => none
  | some (neg, body) =>
    match body with
    | [] => none
    | d :: ds =>
      if pyIsDigit d then
        match pyDigitsRest ds with
        | none => none
        | some rest =>
          let n : Nat := digitsVal (d :: rest)
          some (if neg then -(n : Int) else (n : Int))
      else none

/-- utils.py chapter_name_to_int: int(name.lstrip("#")), with a
ValueError turned into None. -/
def chapter_name_to_int (name : String) : Option Int :=
  pyParseInt (String.mk (name.data.dropWhile (fun c => c == '#')))

/-- The character blacklist of utils.py beautify_path. -/
def blacklisted (c : Char) : Bool :=
  c == '~' || c == backquoteChar || c == '!' || c == '@' || c == '$' ||
  c == '^' || c == '*' || c == '\\' || c == '【' || c == '】'

/-- A character the cleanup pass of beautify_path eliminates:
blacklisted, or a colon, or a slash. -/
def isBad (c : Char) : Bool := blacklisted c || c == ':' || c == '/'

/-- Left-to-right, non-overlapping replacement of ": " by " - ". -/
def replaceColonSpace : List Char → List Char
  | ':' :: ' ' :: rest => ' ' :: '-' :: ' ' :: replaceColonSpace rest
  | c :: rest => c :: replaceColonSpace rest
  | [] => []

/-- Replacement of a remaining ":" by "-". -/
def colonToDash (c : Char) : Char := if c == ':' then '-' else c

/-- Replacement of "/" by " of ". -/
def replaceSlash : List Char → List Char
  | '/' :: rest => ' ' :: 'o' :: 'f' :: ' ' :: replaceSlash rest
  | c :: rest => c :: replaceSlash rest
  | [] => []

/-- The character-level cleanup of beautify_path: drop blacklisted
characters, replace ": " by " - ", remaining ":" by "-", "/" by " of ". -/
def cleanupChars (s : List Char) : List Char :=
  replaceSlash ((replaceColonSpace (s.filter (fun c => !blacklisted c))).map colonToDash)

/-- Tokenisation on whitespace, fuelled so that it is structurally
recursive and computes by kernel reduction.  The fuel is always at
least the length of the list, and the zero-fuel branch is unreachable
(see the unfolding lemmas splitWs_nil and splitWs_cons below). -/
def splitWsGo : Nat → List Char → List (List Char)
  | _, [] => []
  | 0, _ :: _ => []
  | fuel + 1, c :: cs =>
    if pyIsSpace c then splitWsGo fuel cs
    else (c :: cs.takeWhile (fun d => !pyIsSpace d))
      :: splitWsGo fuel (cs.dropWhile (fun d => !pyIsSpace d))

/-- Tokenisation on whitespace: re.findall of nonempty runs of
non-whitespace characters. -/
def splitWs (l : List Char) : List (List Char) := splitWsGo l.length l

/-- The closing bracket matching an opening bracket, if the character
is one of the three opening brackets of the pattern. -/
def closingOf (c : Char) : Option Char :=
  if c == '(' then some ')'
  else if c == '[' then some ']'
  else if c == openBrace then some closeBrace
  else none

/-- Fuelled scanner for the ASCII-fragment bracket pass; the fuel is
always at least the length of the list and the zero-fuel branch is
unreachable (see the unfolding lemmas asciiBracketSub_nil and
asciiBracketSub_cons below). -/
def asciiBracketSubGo : Nat → List Char → List Char
  | _, [] => []
  | 0, l => l
  | fuel + 1, c :: cs =>
    match closingOf c with
    | none => c :: asciiBracketSubGo fuel cs
    | some close =>
      if close ∈ cs then
        asciiCapitalize (c :: cs.takeWhile (fun d => d != close) ++ [close])
          ++ asciiBracketSubGo fuel ((cs.dropWhile (fun d => d != close)).tail)
      else c :: asciiBracketSubGo fuel cs

/-- The per-token bracket pass of beautify_path: the regex substitution
capitalizing every (non-greedy) bracketed group, brackets included.
Scanning left to right, at an opening bracket whose closer occurs later
the whole match up to the first closer is replaced by its
str.capitalize, and scanning resumes after it. -/
def asciiBracketSub (l : List Char) : List Char := asciiBracketSubGo l.length l

/-- Fuelled scanner for the bracket pass of beautify_path: the regex
substitution capitalizing every (non-greedy) bracketed group, brackets
included.  Scanning left to right, at an opening bracket whose closer
occurs later the whole match up to the first closer is replaced by its
str.capitalize, and scanning resumes after it.  The fuel is always at
least the length of the list and the zero-fuel branch is unreachable. -/
def bracketSubGoC : Nat → List Char → List Char
  | _, [] => []
  | 0, l => l
  | fuel + 1, c :: cs =>
    match closingOf c with
    | none => c :: bracketSubGoC fuel cs
    | some close =>
      if close ∈ cs then
        pyCapitalizeC (c :: cs.takeWhile (fun d => d != close) ++ [close])
          ++ bracketSubGoC fuel ((cs.dropWhile (fun d => d != close)).tail)
      else c :: bracketSubGoC fuel cs

/-- The per-token bracket pass of beautify_path. -/
def bracketSubC (l : List Char) : List Char := bracketSubGoC l.length l

/-- The ASCII fragment of the per-word case conversion: capitalize a
word containing an apostrophe, title-case every other word. -/
def asciiWordCase (w : List Char) : List Char :=
  if aposChar ∈ w then asciiCapitalize w else asciiTitle w

/-- The per-word case conversion of beautify_path: capitalize a word
containing an apostrophe, title-case every other word. -/
def wordCaseC (w : List Char) : List Char :=
  if aposChar ∈ w then pyCapitalizeC w else pyTitleC w

/-- Python " ".join. -/
def joinWords : List (List Char) → List Char
  | [] => []
  | [t] => t
  | t :: ts => t ++ ' ' :: joinWords ts

/-- The ASCII-fragment beautify pipeline, through which the
idempotence of beautify_path on ASCII input is proved. -/
def asciiBeautifyChars (s : List Char) : List Char :=
  joinWords ((splitWs (cleanupChars s)).map (fun t => asciiWordCase (asciiBracketSub t)))

/-- utils.py beautify_path on character lists. -/
def beautifyChars (s : List Char) : List Char :=
  joinWords ((splitWs (cleanupChars s)).map (fun t => wordCaseC (bracketSubC t)))

/-- utils.py beautify_path (the sanitizer of the spec). -/
def beautify_path (s : String) : String := String.mk (beautifyChars s.data)

/-- Title metadata (the fields of the upstream Title record that the
exporter reads).  The Language enum lives in mloader/constants.py,
which is not under src/; modelled from the spec: a closed enum whose
default, unmarked member is eng.  The code only uses whether the title
language is eng and the name of the language member, so exactly those
two facts are carried. -/
structure TitleMeta where
  name : String
  language_is_eng : Bool
  language_name : String
deriving DecidableEq

/-- Chapter metadata (the fields of the upstream Chapter record that
the exporter reads).  sub_title is a protobuf string field and hence
never None; the code guard `chapter.sub_title is not None` is
therefore always true. -/
structure ChapterMeta where
  name : String
  sub_title : String
  start_timestamp : Int
deriving DecidableEq

/-- exporter.py ExporterBase._is_extra: the chapter name with "#"
stripped from both ends is exactly "ex". -/
def is_extra_chapter (chapter_name : String) : Bool :=
  stripEnds (fun c => c == '#') chapter_name.data == "ex".data

/-- Python truthiness of the next-chapter-name argument
(`next_chapter and next_chapter.name`): present and nonempty. -/
def nextTruthy : Option String → Bool
  | none => false
  | some s => !(s == "")

/-- The Python format spec "0>3" over width w: right-align the string,
padding on the left with the character 0. -/
def padLeft0 (w : Nat) (s : String) : String :=
  String.mk (List.replicate (w - s.length) '0') ++ s

/-- exporter.py _format_chapter_prefix, lines 71-89: the
chapter-number token.  The resolved value n is rendered with
f-string padding {n:0>3}; when no numeric value is resolved the
fallback beautify_path(chapter_name), a string, goes through the very
same {..:0>3} format spec. -/
def chapter_num_token (is_oneshot is_extra : Bool) (chapter_name : String)
    (next_name : Option String) : String :=
  let st : String × String × Option Int :=
    if is_oneshot then ("", "", some 0)
    else if is_extra && nextTruthy next_name then
      match chapter_name_to_int (next_name.getD "") with
      | some n => ("x1", if n - 1 < 1000 then "c" else "d", some (n - 1))
      | none => ("x1", "", none)
    else
      match chapter_name_to_int chapter_name with
      | some n => ("", if n < 1000 then "c" else "d", some n)
      | none => ("", "", none)
  match st with
  | (suf, pre, some n) => pre ++ padLeft0 3 (toString n) ++ suf
  | (suf, pre, none) => pre ++ padLeft0 3 (beautify_path chapter_name) ++ suf

/-- Python " ".join on a list of strings. -/
def joinSp : List String → String
  | [] => ""
  | [x] => x
  | x :: xs => x ++ " " ++ joinSp xs

/-- exporter.py _format_chapter_prefix (lines 58-94): the space-joined
components of the chapter prefix.  localYear models
datetime.fromtimestamp(..).year, the local calendar year of a unix
timestamp, and currentYear models datetime.today().year; both are
environment facts passed in as parameters. -/
def format_chapter_head (title_name chapter_name : String)
    (is_oneshot is_extra : Bool)
    (language_is_eng : Bool) (language_name : String)
    (localYear : Int → Int) (start_timestamp : Int) (currentYear : Int)
    (next_name : Option String) : String :=
  let components : List String :=
    [title_name]
      ++ (if language_is_eng then [] else ["[" ++ language_name ++ "]"])
      ++ ["-"]
      ++ [chapter_num_token is_oneshot is_extra chapter_name next_name]
      ++ (if localYear start_timestamp ≤ currentYear
            then ["(" ++ toString (localYear start_timestamp) ++ ")"] else [])
      ++ ["(web)"]
  joinSp components

/-- exporter.py _format_chapter_suffix (lines 96-97). -/
def format_chapter_suf (extra_info : List String) : String :=
  joinSp (extra_info ++ ["[fr3akyphantom]"])

/-- The naming context computed once by ExporterBase.__init__
(lines 20-53). -/
structure NamingCtx where
  destination : String
  add_chapter_title : Bool
  title_name : String
  is_oneshot : Bool
  is_extra : Bool
  chapter_pre : String
  chapter_suf : String
  chapter_name : String
deriving DecidableEq

/-- exporter.py ExporterBase.__init__ (lines 20-53). -/
def exporter_base_init (destination : String) (title : TitleMeta)
    (chapter : ChapterMeta) (next_chapter : Option ChapterMeta)
    (add_chapter_title : Bool)
    (localYear : Int → Int) (currentYear : Int) : NamingCtx :=
  let title_name := beautify_path title.name
  let oneshot := is_oneshot chapter.name chapter.sub_title
  let extra := is_extra_chapter chapter.name
  let extra_info :=
    (if oneshot then ["[Oneshot]"] else [])
      ++ (if add_chapter_title then ["[" ++ beautify_path chapter.sub_title ++ "]"] else [])
  let pre := format_chapter_head title_name chapter.name oneshot extra
    title.language_is_eng title.language_name localYear chapter.start_timestamp
    currentYear (next_chapter.map (fun c => c.name))
  let suf := format_chapter_suf extra_info
  { destination := destination
    add_chapter_title := add_chapter_title
    title_name := title_name
    is_oneshot := oneshot
    is_extra := extra
    chapter_pre := pre
    chapter_suf := suf
    chapter_name := joinSp [pre, suf] }

/-- A page index: a single page number or a merged spread, where
span a b models the Python range(a, b) with its start and stop bounds. -/
inductive PageIx where
  | single : Int → PageIx
  | span : Int → Int → PageIx
deriving DecidableEq

/-- exporter.py format_page_name (lines 99-107). -/
def format_page_name (ctx : NamingCtx) (page : PageIx) (ext : String) : String :=
  let ptok : String :=
    match page with
    | .span a b => "p" ++ padLeft0 3 (toString a) ++ "-" ++ padLeft0 3 (toString b)
    | .single n => "p" ++ padLeft0 3 (toString n)
  let ext2 := String.mk (ext.data.dropWhile (fun c => c == '.'))
  ctx.chapter_pre ++ " - " ++ ptok ++ " " ++ ctx.chapter_suf ++ "." ++ ext2

/-- The contents a file on disk can have in this model: pre-existing
raw bytes; the bytes an in-memory zip buffer encodes to (determined by
the ordered entries written into it); or the bytes a PDF encoder
produces (determined by the ordered page images and the metadata
passed to save). -/
inductive FileData where
  | raw : List Nat → FileData
  | zipBytes : List (String × List Nat) → FileData
  | pdfBytes : List (List Nat) → String → String → FileData
deriving DecidableEq

/-- The filesystem, as an association list from paths to contents. -/
abbrev FS := List (String × FileData)

/-- Write (create or overwrite) one file. -/
def fsUpdate : FS → String → FileData → FS
  | [], p, d => [(p, d)]
  | (q, e) :: rest, p, d =>
    if q == p then (p, d) :: rest else (q, e) :: fsUpdate rest p d

/-- Read one file. -/
def fsLookup (fs : FS) (p : String) : Option FileData := List.lookup p fs

/-- The application identity string used as PDF metadata.  Modelled
from the spec: it is built from `__title__` and `__version__` of
mloader/__version__.py, which is not under src/; its exact value is
irrelevant to the claims, only that it is a fixed string. -/
def app_name : String := "mloader - <version>"

/-- The destination archive path of CBZExporter (line 154). -/
def cbz_full_path (ctx : NamingCtx) : String :=
  ctx.destination ++ "/" ++ ctx.title_name ++ "/" ++ ctx.chapter_name ++ ".cbz"

/-- The state of a CBZExporter: the naming context, the destination
path, the skip-all flag, the in-memory archive buffer (the ordered
entries written into the zip held in BytesIO), whether the zip has
been closed, and an instrumentation counter of how many times the
expensive finalize (flushing the buffer to disk) has run. -/
structure CBZState where
  ctx : NamingCtx
  path : String
  skip_all_images : Bool
  archive : List (String × List Nat)
  archiveClosed : Bool
  finalizeCount : Nat
deriving DecidableEq

/-- exporter.py CBZExporter.__init__ (lines 150-161).  The mkdir call
only affects directories, which no claim observes, and is not
modelled.  skip_all_images is set iff the fully-named destination
archive already exists. -/
def CBZExporter_init (destination : String) (title : TitleMeta)
    (chapter : ChapterMeta) (next_chapter : Option ChapterMeta)
    (add_chapter_title : Bool)
    (localYear : Int → Int) (currentYear : Int) (fs : FS) : CBZState :=
  let ctx := exporter_base_init destination title chapter next_chapter
    add_chapter_title localYear currentYear
  let fp := cbz_full_path ctx
  { ctx := ctx
    path := fp
    skip_all_images := (fsLookup fs fp).isSome
    archive := []
    archiveClosed := false
    finalizeCount := 0 }

/-- exporter.py CBZExporter.add_image (lines 163-167): a no-op when
skip_all_images is set, otherwise writestr of the page into the
in-memory archive.  The filesystem is threaded through to state that
add_image never touches the disk. -/
def CBZExporter_add_image (s : CBZState) (fs : FS) (image_data : List Nat)
    (index : PageIx) : CBZState × FS :=
  if s.skip_all_images then (s, fs)
  else
    ({ s with archive := s.archive ++
        [(s.ctx.chapter_name ++ "/" ++ format_page_name s.ctx index ".jpg", image_data)] },
     fs)

/-- exporter.py CBZExporter.skip_image (lines 169-170). -/
def CBZExporter_skip_image (s : CBZState) (_ : PageIx) : Bool := s.skip_all_images

/-- exporter.py CBZExporter.close (lines 172-176): return immediately
when skip_all_images is set; otherwise close the zip and write the
whole buffer to the destination path (counted by finalizeCount). -/
def CBZExporter_close (s : CBZState) (fs : FS) : CBZState × FS :=
  if s.skip_all_images then (s, fs)
  else
    ({ s with archiveClosed := true, finalizeCount := s.finalizeCount + 1 },
     fsUpdate fs s.path (FileData.zipBytes s.archive))

/-- The destination document path of PDFExporter (line 186). -/
def pdf_full_path (ctx : NamingCtx) : String :=
  ctx.destination ++ "/" ++ ctx.title_name ++ "/" ++ ctx.chapter_name ++ ".pdf"

/-- The state of a PDFExporter: naming context, destination path,
skip-all flag, the ordered buffer of decoded images (Image.open is an
opaque decode, so an image is identified by its source bytes), and the
finalize instrumentation counter. -/
structure PDFState where
  ctx : NamingCtx
  path : String
  skip_all_images : Bool
  images : List (List Nat)
  finalizeCount : Nat
deriving DecidableEq

/-- exporter.py PDFExporter.__init__ (lines 182-189). -/
def PDFExporter_init (destination : String) (title : TitleMeta)
    (chapter : ChapterMeta) (next_chapter : Option ChapterMeta)
    (add_chapter_title : Bool)
    (localYear : Int → Int) (currentYear : Int) (fs : FS) : PDFState :=
  let ctx := exporter_base_init destination title chapter next_chapter
    add_chapter_title localYear currentYear
  let fp := pdf_full_path ctx
  { ctx := ctx
    path := fp
    skip_all_images := (fsLookup fs fp).isSome
    images := []
    finalizeCount := 0 }

/-- exporter.py PDFExporter.add_image (lines 191-194). -/
def PDFExporter_add_image (s : PDFState) (fs : FS) (image_data : List Nat)
    (_ : PageIx) : PDFState × FS :=
  if s.skip_all_images then (s, fs)
  else ({ s with images := s.images ++ [image_data] }, fs)

/-- exporter.py PDFExporter.skip_image (lines 196-197). -/
def PDFExporter_skip_image (s : PDFState) (_ : PageIx) : Bool := s.skip_all_images

/-- exporter.py PDFExporter.close (lines 199-214): return immediately
when skip_all_images is set or no images were buffered; otherwise
encode all buffered images into one document at the destination path
with the chapter name and application identity as metadata (counted by
finalizeCount). -/
def PDFExporter_close (s : PDFState) (fs : FS) : PDFState × FS :=
  if s.skip_all_images || s.images.isEmpty then (s, fs)
  else
    ({ s with finalizeCount := s.finalizeCount + 1 },
     fsUpdate fs s.path (FileData.pdfBytes s.images s.ctx.chapter_name app_name))

/-- Fixture title used by concrete witnesses. -/
def titleW : TitleMeta := ⟨"T", true, "English"⟩

/-- Fixture chapter used by concrete witnesses. -/
def chapterW : ChapterMeta := ⟨"#1", "", 0⟩

/-- Fixture local-year oracle used by concrete witnesses. -/
def yearW : Int → Int := fun _ => 2020

/-- Fixture naming context used by concrete witnesses. -/
def ctxW : NamingCtx := exporter_base_init "d" titleW chapterW none false yearW 2024

/-- Fixture filesystem with the destination archive already present. -/
def fsW : FS := [(cbz_full_path ctxW, FileData.raw [1, 2])]

/-- Fixture filesystem with the destination document already present. -/
def fsPdfW : FS := [(pdf_full_path ctxW, FileData.raw [9])]

/-- Archive exporter constructed against a fresh filesystem. -/
def cbzFreshW : CBZState := CBZExporter_init "d" titleW chapterW none false yearW 2024 []

/-- Archive exporter constructed against fsW (skip-all set). -/
def cbzSkipW : CBZState := CBZExporter_init "d" titleW chapterW none false yearW 2024 fsW

/-- Document exporter constructed against a fresh filesystem. -/
def pdfFreshW : PDFState := PDFExporter_init "d" titleW chapterW none false yearW 2024 []

/-- Document exporter constructed against fsPdfW (skip-all set). -/
def pdfSkipW : PDFState := PDFExporter_init "d" titleW chapterW none false yearW 2024 fsPdfW

/-! ### Character-level lemmas -/

theorem charOfNat_toNat (n : Nat) (h : n < 55296) : (Char.ofNat n).toNat = n := by
  have hv : n.isValidChar := Or.inl h
  simp only [Char.ofNat, hv, dif_pos, Char.ofNatAux, Char.toNat]
  rfl

theorem char_toNat_inj {c d : Char} (h : c.toNat = d.toNat) : c = d :=
  Char.eq_of_val_eq (UInt32.toNat.inj h)

theorem charOfNat_self {c : Char} (h : c.toNat < 55296) : Char.ofNat c.toNat = c :=
  char_toNat_inj (charOfNat_toNat c.toNat h)

theorem asciiLower_toNat (c : Char) :
    (asciiLower c).toNat = if 65 ≤ c.toNat ∧ c.toNat ≤ 90 then c.toNat + 32 else c.toNat := by
  unfold asciiLower isAsciiUpper
  split
  · next hc =>
    simp only [Bool.and_eq_true, decide_eq_true_eq] at hc
    rw [charOfNat_toNat _ (by omega), if_pos hc]
  · next hc =>
    simp only [Bool.and_eq_true, decide_eq_true_eq, not_and, not_le] at hc
    rw [if_neg]
    omega

theorem asciiUpper_toNat (c : Char) :
    (asciiUpper c).toNat = if 97 ≤ c.toNat ∧ c.toNat ≤ 122 then c.toNat - 32 else c.toNat := by
  unfold asciiUpper isAsciiLower
  split
  · next hc =>
    simp only [Bool.and_eq_true, decide_eq_true_eq] at hc
    rw [charOfNat_toNat _ (by omega), if_pos hc]
  · next hc =>
    simp only [Bool.and_eq_true, decide_eq_true_eq, not_and, not_le] at hc
    rw [if_neg]
    omega

theorem char_eq_iff_toNat {c d : Char} : c = d ↔ c.toNat = d.toNat :=
  ⟨fun h => by rw [h], char_toNat_inj⟩

theorem asciiLower_asciiLower (c : Char) : asciiLower (asciiLower c) = asciiLower c := by
  apply char_toNat_inj
  simp only [asciiLower_toNat]
  split_ifs <;> omega

theorem asciiLower_asciiUpper (c : Char) : asciiLower (asciiUpper c) = asciiLower c := by
  apply char_toNat_inj
  simp only [asciiLower_toNat, asciiUpper_toNat]
  split_ifs <;> omega

theorem asciiLower_congr_toNat {c d : Char} (h : asciiLower c = asciiLower d) :
    (if 65 ≤ c.toNat ∧ c.toNat ≤ 90 then c.toNat + 32 else c.toNat)
      = (if 65 ≤ d.toNat ∧ d.toNat ≤ 90 then d.toNat + 32 else d.toNat) := by
  rw [← asciiLower_toNat, ← asciiLower_toNat, h]

theorem asciiUpper_congr {c d : Char} (h : asciiLower c = asciiLower d) :
    asciiUpper c = asciiUpper d := by
  have hn := asciiLower_congr_toNat h
  apply char_toNat_inj
  simp only [asciiUpper_toNat]
  split at hn <;> split at hn <;> (split_ifs <;> omega)

theorem asciiIsCased_congr {c d : Char} (h : asciiLower c = asciiLower d) :
    asciiIsCased c = asciiIsCased d := by
  have hn := asciiLower_congr_toNat h
  unfold asciiIsCased isAsciiUpper isAsciiLower
  rw [Bool.eq_iff_iff]
  simp only [Bool.or_eq_true, Bool.and_eq_true, decide_eq_true_eq]
  split at hn <;> split at hn <;> omega

theorem asciiLower_of_not_cased {c : Char} (h : asciiIsCased c = false) : asciiLower c = c := by
  unfold asciiIsCased isAsciiUpper isAsciiLower at h
  simp only [Bool.or_eq_false_iff, Bool.and_eq_false_iff, decide_eq_false_iff_not,
    not_le] at h
  unfold asciiLower isAsciiUpper
  rw [if_neg]
  simp only [Bool.and_eq_true, decide_eq_true_eq]
  omega

theorem uncased_eq_congr {c d : Char} (k : Char) (hk : asciiIsCased k = false)
    (h : asciiLower c = asciiLower d) : (c = k) = (d = k) := by
  have hn := asciiLower_congr_toNat h
  have hkn : ¬(65 ≤ k.toNat ∧ k.toNat ≤ 90) ∧ ¬(97 ≤ k.toNat ∧ k.toNat ≤ 122) := by
    unfold asciiIsCased isAsciiUpper isAsciiLower at hk
    simp only [Bool.or_eq_false_iff, Bool.and_eq_false_iff, decide_eq_false_iff_not,
      not_le] at hk
    omega
  apply propext
  rw [char_eq_iff_toNat, char_eq_iff_toNat]
  split at hn <;> split at hn <;> omega

theorem pyIsSpace_congr {c d : Char} (h : asciiLower c = asciiLower d) :
    pyIsSpace c = pyIsSpace d := by
  have hn := asciiLower_congr_toNat h
  unfold pyIsSpace
  rw [Bool.eq_iff_iff]
  simp only [Bool.or_eq_true, beq_iff_eq]
  split at hn <;> split at hn <;> omega

/-! ### Word-level lemmas: case conversions only depend on, and only
change, the letter case of a token -/

theorem map_asciiLower_asciiCapitalize (s : List Char) :
    (asciiCapitalize s).map asciiLower = s.map asciiLower := by
  cases s with
  | nil => rfl
  | cons c cs =>
    simp only [asciiCapitalize, List.map_cons, List.map_map, asciiLower_asciiUpper,
      List.cons.injEq, true_and]
    apply List.map_congr_left
    intro a _
    simp only [Function.comp_apply, asciiLower_asciiLower]

theorem map_asciiLower_asciiTitleAux (b : Bool) (s : List Char) :
    (asciiTitleAux b s).map asciiLower = s.map asciiLower := by
  induction s generalizing b with
  | nil => rfl
  | cons c cs ih =>
    simp only [asciiTitleAux]
    split
    · simp only [List.map_cons, ih]
      congr 1
      split
      · exact asciiLower_asciiLower c
      · exact asciiLower_asciiUpper c
    · simp only [List.map_cons, ih]

theorem asciiCapitalize_congr {s t : List Char}
    (h : s.map asciiLower = t.map asciiLower) : asciiCapitalize s = asciiCapitalize t := by
  cases s with
  | nil =>
    cases t with
    | nil => rfl
    | cons d ds => simp at h
  | cons c cs =>
    cases t with
    | nil => simp at h
    | cons d ds =>
      simp only [List.map_cons, List.cons.injEq] at h
      simp only [asciiCapitalize, asciiUpper_congr h.1, List.cons.injEq, true_and]
      exact h.2

theorem asciiTitleAux_congr {s t : List Char} (b : Bool)
    (h : s.map asciiLower = t.map asciiLower) : asciiTitleAux b s = asciiTitleAux b t := by
  induction s generalizing t b with
  | nil =>
    cases t with
    | nil => rfl
    | cons d ds => simp at h
  | cons c cs ih =>
    cases t with
    | nil => simp at h
    | cons d ds =>
      simp only [List.map_cons, List.cons.injEq] at h
      simp only [asciiTitleAux, asciiIsCased_congr h.1]
      split
      · simp only [List.cons.injEq]
        refine ⟨?_, ih true h.2⟩
        split
        · exact h.1
        · exact asciiUpper_congr h.1
      · next hd =>
        have hd2 : asciiIsCased d = false := by simpa using hd
        have hc2 : asciiIsCased c = false := by rw [asciiIsCased_congr h.1]; exact hd2
        have hcd : c = d := by
          rw [← asciiLower_of_not_cased hc2, ← asciiLower_of_not_cased hd2, h.1]
        rw [hcd]
        simp only [List.cons.injEq, true_and]
        exact ih false h.2

theorem mem_map_asciiLower_of_uncased (k : Char) (hk : asciiIsCased k = false)
    (s : List Char) : (k ∈ s) ↔ k ∈ s.map asciiLower := by
  simp only [List.mem_map]
  constructor
  · intro hx
    exact ⟨k, hx, asciiLower_of_not_cased hk⟩
  · rintro ⟨c, hc, hck⟩
    have h1 : asciiLower c = asciiLower k := by rw [hck, asciiLower_of_not_cased hk]
    have h2 : c = k := by rw [uncased_eq_congr (c := c) (d := k) k hk h1]
    exact h2 ▸ hc

theorem mem_congr_of_uncased {s t : List Char} (k : Char)
    (hk : asciiIsCased k = false) (h : s.map asciiLower = t.map asciiLower) :
    (k ∈ s) = (k ∈ t) := by
  apply propext
  rw [mem_map_asciiLower_of_uncased k hk s, mem_map_asciiLower_of_uncased k hk t, h]

theorem asciiWordCase_congr {s t : List Char}
    (h : s.map asciiLower = t.map asciiLower) : asciiWordCase s = asciiWordCase t := by
  unfold asciiWordCase
  have hmem := mem_congr_of_uncased aposChar (by decide) h
  by_cases hs : aposChar ∈ s
  · have ht : aposChar ∈ t := hmem ▸ hs
    rw [if_pos hs, if_pos ht]
    exact asciiCapitalize_congr h
  · have ht : aposChar ∉ t := fun hx => hs (hmem ▸ hx)
    rw [if_neg hs, if_neg ht]
    exact asciiTitleAux_congr false h

theorem map_asciiLower_asciiWordCase (s : List Char) :
    (asciiWordCase s).map asciiLower = s.map asciiLower := by
  unfold asciiWordCase
  split
  · exact map_asciiLower_asciiCapitalize s
  · exact map_asciiLower_asciiTitleAux false s

/-! ### Cleanup-pass lemmas: what characters survive it, and that it
fixes every string free of the characters it eliminates -/

theorem replaceColonSpace_chars :
    ∀ (l : List Char), ∀ c ∈ replaceColonSpace l, c ∈ l ∨ c = ' ' ∨ c = '-' := by
  intro l
  induction l using replaceColonSpace.induct with
  | case1 rest ih =>
    intro c h
    simp only [replaceColonSpace, List.mem_cons] at h
    rcases h with h | h | h | h
    · right; left; exact h
    · right; right; exact h
    · right; left; exact h
    · rcases ih c h with h2 | h2
      · left; simp [List.mem_cons, h2]
      · right; exact h2
  | case2 c0 rest hne ih =>
    intro c h
    rw [replaceColonSpace.eq_2 c0 rest hne] at h
    rcases List.mem_cons.mp h with h | h
    · left; simp [h]
    · rcases ih c h with h2 | h2
      · left; simp [List.mem_cons, h2]
      · right; exact h2
  | case3 =>
    intro c h
    simp [replaceColonSpace] at h

theorem replaceColonSpace_eq_self :
    ∀ (l : List Char), (':' ∉ l) → replaceColonSpace l = l := by
  intro l
  induction l using replaceColonSpace.induct with
  | case1 rest ih =>
    intro h
    exact absurd (by simp) h
  | case2 c0 rest hne ih =>
    intro h
    rw [replaceColonSpace.eq_2 c0 rest hne, ih (fun hx => h (by simp [hx]))]
  | case3 =>
    intro _
    rfl

theorem replaceSlash_chars :
    ∀ (l : List Char), ∀ c ∈ replaceSlash l,
      (c ∈ l ∧ c ≠ '/') ∨ c = ' ' ∨ c = 'o' ∨ c = 'f' := by
  intro l
  induction l using replaceSlash.induct with
  | case1 rest ih =>
    intro c h
    simp only [replaceSlash, List.mem_cons] at h
    rcases h with h | h | h | h | h
    · right; left; exact h
    · right; right; left; exact h
    · right; right; right; exact h
    · right; left; exact h
    · rcases ih c h with ⟨h2, h3⟩ | h2
      · exact Or.inl ⟨by simp [List.mem_cons, h2], h3⟩
      · right; exact h2
  | case2 c0 rest hne ih =>
    intro c h
    rw [replaceSlash.eq_2 c0 rest hne] at h
    rcases List.mem_cons.mp h with h | h
    · subst h
      left
      refine ⟨by simp, ?_⟩
      intro hx
      exact hne (by exact hx)
    · rcases ih c h with ⟨h2, h3⟩ | h2
      · exact Or.inl ⟨by simp [List.mem_cons, h2], h3⟩
      · right; exact h2
  | case3 =>
    intro c h
    simp [replaceSlash] at h

theorem replaceSlash_eq_self :
    ∀ (l : List Char), ('/' ∉ l) → replaceSlash l = l := by
  intro l
  induction l using replaceSlash.induct with
  | case1 rest ih =>
    intro h
    exact absurd (by simp) h
  | case2 c0 rest hne ih =>
    intro h
    rw [replaceSlash.eq_2 c0 rest hne, ih (fun hx => h (by simp [hx]))]
  | case3 =>
    intro _
    rfl

theorem colonToDash_ne_colon (c : Char) : colonToDash c ≠ ':' := by
  unfold colonToDash
  split
  · decide
  · next h => simpa using h

theorem colonToDash_cases (c : Char) : colonToDash c = c ∨ colonToDash c = '-' := by
  unfold colonToDash
  split
  · right; rfl
  · left; rfl

theorem cleanup_no_bad (l : List Char) : ∀ c ∈ cleanupChars l, isBad c = false := by
  intro c hc
  unfold cleanupChars at hc
  rcases replaceSlash_chars _ c hc with ⟨hin, hslash⟩ | hlit
  · rcases List.mem_map.mp hin with ⟨d, hd, hcd⟩
    have hcolon : c ≠ ':' := hcd ▸ colonToDash_ne_colon d
    have hcd2 : c = d ∨ c = '-' := by
      rcases colonToDash_cases d with h | h
      · left; rw [← hcd, h]
      · right; rw [← hcd, h]
    rcases hcd2 with rfl | rfl
    · rcases replaceColonSpace_chars _ c hd with hin3 | hsp
      · have hbl : blacklisted c = false := by
          have := List.mem_filter.mp hin3
          simpa using this.2
        unfold isBad
        simp [hbl, hcolon, hslash]
      · rcases hsp with rfl | rfl <;> decide
    · decide
  · rcases hlit with rfl | rfl | rfl <;> decide

theorem cleanup_eq_self (l : List Char) (h : ∀ c ∈ l, isBad c = false) :
    cleanupChars l = l := by
  have hbl : ∀ c ∈ l, blacklisted c = false := by
    intro c hc
    have := h c hc
    unfold isBad at this
    simp only [Bool.or_eq_false_iff] at this
    exact this.1.1
  have hcolon : ':' ∉ l := by
    intro hx
    have := h ':' hx
    simp [isBad] at this
  have hslash : '/' ∉ l := by
    intro hx
    have := h '/' hx
    simp [isBad] at this
  have hmap : l.map colonToDash = l := by
    have h1 : l.map colonToDash = l.map id := by
      apply List.map_congr_left
      intro a ha
      have h2 : ¬((a == ':') = true) := by
        simp only [beq_iff_eq]
        intro hx
        exact hcolon (hx ▸ ha)
      unfold colonToDash
      rw [if_neg h2]
      rfl
    rw [h1, List.map_id]
  unfold cleanupChars
  rw [List.filter_eq_self.mpr (by intro a ha; simp [hbl a ha]),
    replaceColonSpace_eq_self l hcolon, hmap, replaceSlash_eq_self l hslash]

/-! ### Unfolding lemmas for the fuelled scanners -/

theorem splitWsGo_fuel :
    ∀ (f g : Nat) (l : List Char), l.length ≤ f → l.length ≤ g →
      splitWsGo f l = splitWsGo g l := by
  intro f
  induction f with
  | zero =>
    intro g l hf hg
    cases l with
    | nil => cases g <;> rfl
    | cons c cs => simp at hf
  | succ f ih =>
    intro g l hf hg
    cases l with
    | nil => cases g <;> rfl
    | cons c cs =>
      cases g with
      | zero => simp at hg
      | succ g =>
        simp only [splitWsGo]
        have h1 : cs.length ≤ f := by simpa using hf
        have h2 : cs.length ≤ g := by simpa using hg
        have h3 : (cs.dropWhile (fun d => !pyIsSpace d)).length ≤ cs.length :=
          (List.dropWhile_sublist _).length_le
        split
        · exact ih g cs h1 h2
        · rw [ih g _ (le_trans h3 h1) (le_trans h3 h2)]

theorem splitWs_nil : splitWs [] = [] := rfl

theorem splitWs_cons (c : Char) (cs : List Char) :
    splitWs (c :: cs) =
      if pyIsSpace c then splitWs cs
      else (c :: cs.takeWhile (fun d => !pyIsSpace d))
        :: splitWs (cs.dropWhile (fun d => !pyIsSpace d)) := by
  unfold splitWs
  simp only [List.length_cons, splitWsGo]
  split
  · rfl
  · rw [splitWsGo_fuel cs.length _ _ ((List.dropWhile_sublist _).length_le) le_rfl]

theorem asciiBracketSubGo_fuel :
    ∀ (f g : Nat) (l : List Char), l.length ≤ f → l.length ≤ g →
      asciiBracketSubGo f l = asciiBracketSubGo g l := by
  intro f
  induction f with
  | zero =>
    intro g l hf hg
    cases l with
    | nil => cases g <;> rfl
    | cons c cs => simp at hf
  | succ f ih =>
    intro g l hf hg
    cases l with
    | nil => cases g <;> rfl
    | cons c cs =>
      cases g with
      | zero => simp at hg
      | succ g =>
        simp only [asciiBracketSubGo]
        have h1 : cs.length ≤ f := by simpa using hf
        have h2 : cs.length ≤ g := by simpa using hg
        cases closingOf c with
        | none => rw [ih g cs h1 h2]
        | some close =>
          simp only
          have h3 : ((cs.dropWhile (fun d => d != close)).tail).length ≤ cs.length := by
            have h4 := (List.dropWhile_sublist (l := cs) (fun d => d != close)).length_le
            have h5 := List.length_tail (cs.dropWhile (fun d => d != close))
            omega
          split
          · rw [ih g _ (le_trans h3 h1) (le_trans h3 h2)]
          · rw [ih g cs h1 h2]

theorem asciiBracketSub_nil : asciiBracketSub [] = [] := rfl

theorem asciiBracketSub_cons (c : Char) (cs : List Char) :
    asciiBracketSub (c :: cs) =
      match closingOf c with
      | none => c :: asciiBracketSub cs
      | some close =>
        if close ∈ cs then
          asciiCapitalize (c :: cs.takeWhile (fun d => d != close) ++ [close])
            ++ asciiBracketSub ((cs.dropWhile (fun d => d != close)).tail)
        else c :: asciiBracketSub cs := by
  unfold asciiBracketSub
  simp only [List.length_cons, asciiBracketSubGo]
  cases closingOf c with
  | none => rfl
  | some close =>
    simp only
    split
    · congr 1
      apply asciiBracketSubGo_fuel
      · have h4 := (List.dropWhile_sublist (l := cs) (fun d => d != close)).length_le
        have h5 := List.length_tail (cs.dropWhile (fun d => d != close))
        omega
      · exact le_rfl
    · rfl

/-! ### The bracket pass only lowercases characters -/

theorem dropWhile_ne_mem {a : Char} :
    ∀ {l : List Char}, a ∈ l →
      l.dropWhile (fun d => d != a) = a :: (l.dropWhile (fun d => d != a)).tail := by
  intro l hl
  induction l with
  | nil => cases hl
  | cons b bs ih =>
    by_cases hba : b = a
    · subst hba
      simp [List.dropWhile]
    · have hmem : a ∈ bs := by
        rcases List.mem_cons.mp hl with h | h
        · exact absurd h.symm hba
        · exact h
      have hb : (b != a) = true := by simpa using hba
      simp only [List.dropWhile, hb]
      exact ih hmem

theorem map_asciiLower_asciiBracketSubGo :
    ∀ (f : Nat) (l : List Char), l.length ≤ f →
      (asciiBracketSubGo f l).map asciiLower = l.map asciiLower := by
  intro f
  induction f with
  | zero =>
    intro l hf
    cases l with
    | nil => rfl
    | cons c cs => simp at hf
  | succ f ih =>
    intro l hf
    cases l with
    | nil => rfl
    | cons c cs =>
      have h1 : cs.length ≤ f := by simpa using hf
      simp only [asciiBracketSubGo]
      cases closingOf c with
      | none => simp only [List.map_cons, ih cs h1]
      | some close =>
        simp only
        split
        · next hmem =>
          have h3 : ((cs.dropWhile (fun d => d != close)).tail).length ≤ cs.length := by
            have h4 := (List.dropWhile_sublist (l := cs) (fun d => d != close)).length_le
            have h5 := List.length_tail (cs.dropWhile (fun d => d != close))
            omega
          rw [List.map_append, map_asciiLower_asciiCapitalize, ih _ (le_trans h3 h1)]
          have hdec : cs = cs.takeWhile (fun d => d != close)
              ++ close :: (cs.dropWhile (fun d => d != close)).tail := by
            conv_lhs => rw [← List.takeWhile_append_dropWhile (fun d => d != close) cs,
              dropWhile_ne_mem hmem]
          conv_rhs => rw [List.map_cons, hdec]
          simp [List.map_append]
        · simp only [List.map_cons, ih cs h1]

theorem map_asciiLower_asciiBracketSub (l : List Char) :
    (asciiBracketSub l).map asciiLower = l.map asciiLower :=
  map_asciiLower_asciiBracketSubGo l.length l le_rfl

/-! ### Tokenisation lemmas -/

theorem splitWsGo_tokens :
    ∀ (f : Nat) (l : List Char), l.length ≤ f →
      ∀ t ∈ splitWsGo f l,
        t ≠ [] ∧ (∀ c ∈ t, pyIsSpace c = false) ∧ (∀ c ∈ t, c ∈ l) := by
  intro f
  induction f with
  | zero =>
    intro l hf t ht
    cases l with
    | nil => simp [splitWsGo] at ht
    | cons c cs => simp at hf
  | succ f ih =>
    intro l hf t ht
    cases l with
    | nil => simp [splitWsGo] at ht
    | cons c cs =>
      have h1 : cs.length ≤ f := by simpa using hf
      simp only [splitWsGo] at ht
      by_cases hsp : pyIsSpace c = true
      · rw [if_pos hsp] at ht
        obtain ⟨hne, hns, hmem⟩ := ih cs h1 t ht
        exact ⟨hne, hns, fun d hd => List.mem_cons_of_mem c (hmem d hd)⟩
      · rw [if_neg hsp] at ht
        rcases List.mem_cons.mp ht with rfl | ht2
        · refine ⟨by simp, ?_, ?_⟩
          · intro d hd
            rcases List.mem_cons.mp hd with rfl | hd2
            · simpa using hsp
            · have := List.mem_takeWhile_imp hd2
              simpa using this
          · intro d hd
            rcases List.mem_cons.mp hd with rfl | hd2
            · simp
            · exact List.mem_cons_of_mem c ((List.takeWhile_sublist _).subset hd2)
        · have h3 : (cs.dropWhile (fun d => !pyIsSpace d)).length ≤ f :=
            le_trans (List.dropWhile_sublist _).length_le h1
          obtain ⟨hne, hns, hmem⟩ := ih _ h3 t ht2
          exact ⟨hne, hns, fun d hd =>
            List.mem_cons_of_mem c ((List.dropWhile_sublist _).subset (hmem d hd))⟩

theorem splitWs_tokens (l : List Char) :
    ∀ t ∈ splitWs l, t ≠ [] ∧ (∀ c ∈ t, pyIsSpace c = false) ∧ (∀ c ∈ t, c ∈ l) :=
  splitWsGo_tokens l.length l le_rfl

theorem takeWhile_all {p : Char → Bool} :
    ∀ (cs : List Char), (∀ c ∈ cs, p c = true) →
      cs.takeWhile p = cs ∧ cs.dropWhile p = [] := by
  intro cs
  induction cs with
  | nil => intro _; exact ⟨rfl, rfl⟩
  | cons b bs ih =>
    intro h
    have hb : p b = true := h b (by simp)
    obtain ⟨h1, h2⟩ := ih (fun c hc => h c (by simp [hc]))
    constructor
    · rw [List.takeWhile_cons, if_pos hb, h1]
    · rw [List.dropWhile_cons, if_pos hb, h2]

theorem takeWhile_append_all {p : Char → Bool} :
    ∀ (cs y : List Char), (∀ c ∈ cs, p c = true) →
      (cs ++ y).takeWhile p = cs ++ y.takeWhile p
        ∧ (cs ++ y).dropWhile p = y.dropWhile p := by
  intro cs
  induction cs with
  | nil =>
    intro y _
    simp
  | cons b bs ih =>
    intro y h
    have hb : p b = true := h b (by simp)
    obtain ⟨h1, h2⟩ := ih y (fun c hc => h c (by simp [hc]))
    constructor
    · rw [List.cons_append, List.takeWhile_cons, if_pos hb, h1, List.cons_append]
    · rw [List.cons_append, List.dropWhile_cons, if_pos hb, h2]

theorem splitWs_single_word (t : List Char) (hne : t ≠ [])
    (hns : ∀ c ∈ t, pyIsSpace c = false) : splitWs t = [t] := by
  cases t with
  | nil => exact absurd rfl hne
  | cons c cs =>
    rw [splitWs_cons, if_neg (by simp [hns c (by simp)])]
    have hall : ∀ d ∈ cs, (!pyIsSpace d) = true := by
      intro d hd
      simp [hns d (List.mem_cons_of_mem c hd)]
    obtain ⟨h1, h2⟩ := takeWhile_all cs hall
    rw [h1, h2, splitWs_nil]

theorem splitWs_word_append (t z : List Char) (hne : t ≠ [])
    (hns : ∀ c ∈ t, pyIsSpace c = false) :
    splitWs (t ++ ' ' :: z) = t :: splitWs z := by
  cases t with
  | nil => exact absurd rfl hne
  | cons c cs =>
    rw [List.cons_append, splitWs_cons, if_neg (by simp [hns c (by simp)])]
    have hall : ∀ d ∈ cs, (!pyIsSpace d) = true := by
      intro d hd
      simp [hns d (List.mem_cons_of_mem c hd)]
    obtain ⟨h1, h2⟩ := takeWhile_append_all cs (' ' :: z) hall
    rw [h1, h2, List.takeWhile_cons, List.dropWhile_cons]
    rw [if_neg (by decide), if_neg (by decide), List.append_nil, splitWs_cons,
      if_pos (by decide)]

theorem splitWs_joinWords :
    ∀ (ts : List (List Char)),
      (∀ t ∈ ts, t ≠ [] ∧ ∀ c ∈ t, pyIsSpace c = false) →
      splitWs (joinWords ts) = ts := by
  intro ts
  induction ts with
  | nil =>
    intro _
    rfl
  | cons t ts ih =>
    intro h
    cases ts with
    | nil =>
      simp only [joinWords]
      exact splitWs_single_word t (h t (by simp)).1 (h t (by simp)).2
    | cons t2 rest =>
      rw [show joinWords (t :: t2 :: rest) = t ++ ' ' :: joinWords (t2 :: rest) from rfl,
        splitWs_word_append t _ (h t (by simp)).1 (h t (by simp)).2,
        ih (fun u hu => h u (List.mem_cons_of_mem t hu))]

theorem joinWords_chars :
    ∀ (ts : List (List Char)) (c : Char), c ∈ joinWords ts →
      c = ' ' ∨ ∃ t ∈ ts, c ∈ t := by
  intro ts
  induction ts with
  | nil =>
    intro c hc
    simp [joinWords] at hc
  | cons t ts ih =>
    cases ts with
    | nil =>
      intro c hc
      right
      exact ⟨t, by simp, by simpa [joinWords] using hc⟩
    | cons t2 rest =>
      intro c hc
      rw [show joinWords (t :: t2 :: rest) = t ++ ' ' :: joinWords (t2 :: rest) from rfl] at hc
      rcases List.mem_append.mp hc with h | h
      · right; exact ⟨t, by simp, h⟩
      · rcases List.mem_cons.mp h with h | h
        · left; exact h
        · rcases ih c h with h | ⟨u, hu, hcu⟩
          · left; exact h
          · right; exact ⟨u, List.mem_cons_of_mem t hu, hcu⟩

/-! ### Idempotence of beautify_path -/

theorem chars_lowerEq {s t : List Char} (h : s.map asciiLower = t.map asciiLower) :
    ∀ c ∈ s, ∃ d ∈ t, asciiLower c = asciiLower d := by
  intro c hc
  have h2 : asciiLower c ∈ t.map asciiLower := h ▸ List.mem_map_of_mem asciiLower hc
  rcases List.mem_map.mp h2 with ⟨d, hd, hdc⟩
  exact ⟨d, hd, hdc.symm⟩

theorem isBad_congr {c d : Char} (h : asciiLower c = asciiLower d) : isBad c = isBad d := by
  unfold isBad blacklisted
  rw [Bool.eq_iff_iff]
  simp only [Bool.or_eq_true, beq_iff_eq]
  rw [uncased_eq_congr '~' (by decide) h, uncased_eq_congr backquoteChar (by decide) h,
    uncased_eq_congr '!' (by decide) h, uncased_eq_congr '@' (by decide) h,
    uncased_eq_congr '$' (by decide) h, uncased_eq_congr '^' (by decide) h,
    uncased_eq_congr '*' (by decide) h, uncased_eq_congr '\\' (by decide) h,
    uncased_eq_congr '【' (by decide) h, uncased_eq_congr '】' (by decide) h,
    uncased_eq_congr ':' (by decide) h, uncased_eq_congr '/' (by decide) h]

theorem length_eq_of_map_asciiLower {s t : List Char}
    (h : s.map asciiLower = t.map asciiLower) : s.length = t.length := by
  have h2 := congrArg List.length h
  simpa using h2

theorem beautify_fixed (ts2 : List (List Char))
    (h : ∀ u ∈ ts2, u ≠ [] ∧ (∀ c ∈ u, pyIsSpace c = false)
      ∧ (∀ c ∈ u, isBad c = false) ∧ asciiWordCase (asciiBracketSub u) = u) :
    asciiBeautifyChars (joinWords ts2) = joinWords ts2 := by
  have hclean : cleanupChars (joinWords ts2) = joinWords ts2 := by
    apply cleanup_eq_self
    intro c hc
    rcases joinWords_chars ts2 c hc with rfl | ⟨u, hu, hcu⟩
    · decide
    · exact (h u hu).2.2.1 c hcu
  have hsplit : splitWs (joinWords ts2) = ts2 :=
    splitWs_joinWords ts2 (fun u hu => ⟨(h u hu).1, (h u hu).2.1⟩)
  unfold asciiBeautifyChars
  rw [hclean, hsplit]
  have hmap : ts2.map (fun t => asciiWordCase (asciiBracketSub t)) = ts2.map id :=
    List.map_congr_left (fun u hu => (h u hu).2.2.2)
  rw [hmap, List.map_id]

theorem asciiBeautifyChars_idem (l : List Char) :
    asciiBeautifyChars (asciiBeautifyChars l) = asciiBeautifyChars l := by
  have hmapEq : ∀ t : List Char,
      (asciiWordCase (asciiBracketSub t)).map asciiLower = t.map asciiLower := by
    intro t
    rw [map_asciiLower_asciiWordCase, map_asciiLower_asciiBracketSub]
  have hmain : ∀ u ∈ (splitWs (cleanupChars l)).map (fun t => asciiWordCase (asciiBracketSub t)),
      u ≠ [] ∧ (∀ c ∈ u, pyIsSpace c = false)
        ∧ (∀ c ∈ u, isBad c = false) ∧ asciiWordCase (asciiBracketSub u) = u := by
    intro u hu
    rcases List.mem_map.mp hu with ⟨t, ht, rfl⟩
    obtain ⟨hne, hns, hmem⟩ := splitWs_tokens (cleanupChars l) t ht
    refine ⟨?_, ?_, ?_, ?_⟩
    · intro hx
      have hlen := length_eq_of_map_asciiLower (hmapEq t)
      rw [hx] at hlen
      exact hne (List.eq_nil_of_length_eq_zero hlen.symm)
    · intro c hc
      rcases chars_lowerEq (hmapEq t) c hc with ⟨d, hd, hld⟩
      rw [pyIsSpace_congr hld]
      exact hns d hd
    · intro c hc
      rcases chars_lowerEq (hmapEq t) c hc with ⟨d, hd, hld⟩
      rw [isBad_congr hld]
      exact cleanup_no_bad l d (hmem d hd)
    · apply asciiWordCase_congr
      rw [map_asciiLower_asciiBracketSub, map_asciiLower_asciiBracketSub, hmapEq t]
  exact beautify_fixed _ hmain

theorem empty_append_str (s : String) : "" ++ s = s := by
  cases s with
  | mk data => rfl

/-! ### The full case model coincides with the ASCII fragment on
ASCII input, and ASCII input stays ASCII through the pipeline -/

theorem pyLowerC_ascii {c : Char} (h : c.toNat < 128) : pyLowerC c = [asciiLower c] := by
  unfold pyLowerC
  rw [if_neg]
  intro hx
  subst hx
  exact absurd h (by decide)

theorem pyIsCasedC_ascii {c : Char} (h : c.toNat < 128) :
    pyIsCasedC c = asciiIsCased c := by
  unfold pyIsCasedC
  have hx : (c == dottedCapitalI) = false := by
    simp only [beq_eq_false_iff_ne, ne_eq]
    intro hx
    subst hx
    exact absurd h (by decide)
  rw [hx, Bool.or_false]

theorem flatMap_pyLowerC_ascii :
    ∀ (cs : List Char), (∀ c ∈ cs, c.toNat < 128) →
      cs.flatMap pyLowerC = cs.map asciiLower := by
  intro cs
  induction cs with
  | nil => intro _; rfl
  | cons b bs ih =>
    intro h
    simp only [List.flatMap_cons, List.map_cons,
      pyLowerC_ascii (h b (by simp)), ih (fun c hc => h c (by simp [hc]))]
    rfl

theorem pyCapitalizeC_ascii {s : List Char} (h : ∀ c ∈ s, c.toNat < 128) :
    pyCapitalizeC s = asciiCapitalize s := by
  cases s with
  | nil => rfl
  | cons c cs =>
    simp only [pyCapitalizeC, asciiCapitalize, pyUpperC,
      flatMap_pyLowerC_ascii cs (fun d hd => h d (by simp [hd]))]
    rfl

theorem pyTitleAuxC_ascii :
    ∀ (b : Bool) (s : List Char), (∀ c ∈ s, c.toNat < 128) →
      pyTitleAuxC b s = asciiTitleAux b s := by
  intro b s
  induction s generalizing b with
  | nil => intro _; rfl
  | cons c cs ih =>
    intro h
    have hc : c.toNat < 128 := h c (by simp)
    have hcs : ∀ d ∈ cs, d.toNat < 128 := fun d hd => h d (by simp [hd])
    simp only [pyTitleAuxC, asciiTitleAux, pyIsCasedC_ascii hc]
    split
    · rw [ih true hcs]
      split
      · rw [pyLowerC_ascii hc]
        rfl
      · rfl
    · rw [ih false hcs]

theorem wordCaseC_ascii {s : List Char} (h : ∀ c ∈ s, c.toNat < 128) :
    wordCaseC s = asciiWordCase s := by
  unfold wordCaseC asciiWordCase pyTitleC asciiTitle
  split
  · exact pyCapitalizeC_ascii h
  · exact pyTitleAuxC_ascii false s h

theorem bracketSubGoC_ascii :
    ∀ (f : Nat) (l : List Char), l.length ≤ f → (∀ c ∈ l, c.toNat < 128) →
      bracketSubGoC f l = asciiBracketSubGo f l := by
  intro f
  induction f with
  | zero =>
    intro l hf h
    cases l with
    | nil => rfl
    | cons c cs => simp at hf
  | succ f ih =>
    intro l hf h
    cases l with
    | nil => rfl
    | cons c cs =>
      have h1 : cs.length ≤ f := by simpa using hf
      have hcs : ∀ d ∈ cs, d.toNat < 128 := fun d hd => h d (by simp [hd])
      simp only [bracketSubGoC, asciiBracketSubGo]
      cases closingOf c with
      | none => rw [ih cs h1 hcs]
      | some close =>
        simp only
        split
        · next hmem =>
          have h3 : ((cs.dropWhile (fun d => d != close)).tail).length ≤ cs.length := by
            have h4 := (List.dropWhile_sublist (l := cs) (fun d => d != close)).length_le
            have h5 := List.length_tail (cs.dropWhile (fun d => d != close))
            omega
          have htl : ∀ d ∈ (cs.dropWhile (fun d => d != close)).tail, d.toNat < 128 := by
            intro d hd
            exact hcs d (((List.tail_sublist _).trans (List.dropWhile_sublist _)).subset hd)
          rw [ih _ (le_trans h3 h1) htl]
          rw [pyCapitalizeC_ascii]
          intro d hd
          rcases List.mem_cons.mp hd with rfl | hd2
          · exact h d (by simp)
          · rcases List.mem_append.mp hd2 with hd3 | hd3
            · exact hcs d ((List.takeWhile_sublist _).subset hd3)
            · have : d = close := by simpa using hd3
              subst this
              exact hcs d hmem
        · rw [ih cs h1 hcs]

theorem bracketSubC_ascii {l : List Char} (h : ∀ c ∈ l, c.toNat < 128) :
    bracketSubC l = asciiBracketSub l :=
  bracketSubGoC_ascii l.length l le_rfl h

theorem ascii_congr {c d : Char} (h : asciiLower c = asciiLower d) :
    (c.toNat < 128) = (d.toNat < 128) := by
  have hn := asciiLower_congr_toNat h
  apply propext
  split at hn <;> split at hn <;> omega

theorem cleanup_chars_subset :
    ∀ (l : List Char), ∀ c ∈ cleanupChars l,
      c ∈ l ∨ c = ' ' ∨ c = '-' ∨ c = 'o' ∨ c = 'f' := by
  intro l c hc
  unfold cleanupChars at hc
  rcases replaceSlash_chars _ c hc with ⟨hin, _⟩ | hlit
  · rcases List.mem_map.mp hin with ⟨d, hd, hcd⟩
    rcases colonToDash_cases d with h1 | h1
    · have hcd2 : c = d := by rw [← hcd, h1]
      subst hcd2
      rcases replaceColonSpace_chars _ c hd with h2 | h2
      · left
        exact (List.mem_filter.mp h2).1
      · rcases h2 with rfl | rfl
        · right; left; rfl
        · right; right; left; rfl
    · have hcd2 : c = '-' := by rw [← hcd, h1]
      right; right; left; exact hcd2
  · rcases hlit with rfl | rfl | rfl
    · right; left; rfl
    · right; right; right; left; rfl
    · right; right; right; right; rfl

theorem splitWs_cleanup_token_ascii (l : List Char) (h : ∀ c ∈ l, c.toNat < 128) :
    ∀ t ∈ splitWs (cleanupChars l), ∀ d ∈ t, d.toNat < 128 := by
  intro t ht d hd
  have hmem := (splitWs_tokens _ t ht).2.2 d hd
  rcases cleanup_chars_subset l d hmem with h1 | h1 | h1 | h1 | h1
  · exact h d h1
  all_goals (subst h1; decide)

theorem asciiBeautifyChars_out_ascii (l : List Char) (h : ∀ c ∈ l, c.toNat < 128) :
    ∀ c ∈ asciiBeautifyChars l, c.toNat < 128 := by
  intro c hc
  unfold asciiBeautifyChars at hc
  rcases joinWords_chars _ c hc with rfl | ⟨u, hu, hcu⟩
  · decide
  · rcases List.mem_map.mp hu with ⟨t, ht, rfl⟩
    have htascii := splitWs_cleanup_token_ascii l h t ht
    have hmapEq : (asciiWordCase (asciiBracketSub t)).map asciiLower = t.map asciiLower := by
      rw [map_asciiLower_asciiWordCase, map_asciiLower_asciiBracketSub]
    rcases chars_lowerEq hmapEq c hcu with ⟨d, hd, hld⟩
    rw [ascii_congr hld]
    exact htascii d hd

theorem beautifyChars_ascii_eq (l : List Char) (h : ∀ c ∈ l, c.toNat < 128) :
    beautifyChars l = asciiBeautifyChars l := by
  unfold beautifyChars asciiBeautifyChars
  congr 1
  apply List.map_congr_left
  intro t ht
  have htascii := splitWs_cleanup_token_ascii l h t ht
  rw [bracketSubC_ascii htascii]
  apply wordCaseC_ascii
  intro d hd
  rcases chars_lowerEq (map_asciiLower_asciiBracketSub t) d hd with ⟨e, he, hle⟩
  rw [ascii_congr hle]
  exact htascii e he

/-! ### Claim theorems -/

/-- C1 counterexample: sanitize (beautify_path) is not idempotent for
every input string.  For "a" ++ dotted capital I ++ "b", the first
pass title-cases to "A" ++ "i" ++ combining dot ++ "b" (Python lowers
the dotted capital I to the two characters i and U+0307), and the
second pass, finding the uncased combining dot before "b", uppercases
the "b": sanitizing twice differs from sanitizing once, as it does in
Python. -/
theorem sanitize_not_idempotent_cex :
    beautify_path (String.mk ['a', dottedCapitalI, 'b'])
        = String.mk ['A', 'i', combiningDot, 'b']
      ∧ beautify_path (beautify_path (String.mk ['a', dottedCapitalI, 'b']))
        = String.mk ['A', 'i', combiningDot, 'B']
      ∧ beautify_path (beautify_path (String.mk ['a', dottedCapitalI, 'b']))
        ≠ beautify_path (String.mk ['a', dottedCapitalI, 'b']) := by
  refine ⟨by decide, by decide, by decide⟩

/-- C1 amended: sanitize (beautify_path) is idempotent on every string
of ASCII characters, where its case conversions coincide exactly with
Python's; expanding Unicode case mappings (the dotted capital I) break
idempotence on general input. -/
theorem sanitize_idempotent_ascii (s : String)
    (h : ∀ c ∈ s.data, c.toNat < 128) :
    beautify_path (beautify_path s) = beautify_path s := by
  unfold beautify_path
  apply congrArg String.mk
  show beautifyChars (beautifyChars s.data) = beautifyChars s.data
  have h1 : beautifyChars s.data = asciiBeautifyChars s.data :=
    beautifyChars_ascii_eq s.data h
  have h2 : ∀ c ∈ asciiBeautifyChars s.data, c.toNat < 128 :=
    asciiBeautifyChars_out_ascii s.data h
  rw [h1, beautifyChars_ascii_eq _ h2, asciiBeautifyChars_idem]

/-- C1 amended witness: idempotence at a concrete ASCII string. -/
theorem sanitize_idempotent_ascii_witness :
    (∀ c ∈ ("attack: on titan" : String).data, c.toNat < 128)
      ∧ beautify_path (beautify_path "attack: on titan")
        = beautify_path "attack: on titan" :=
  ⟨by decide, sanitize_idempotent_ascii "attack: on titan" (by decide)⟩

/-- C2 counterexample: for the extra chapter named "ex" with no next
chapter (no numeric value is resolved on any path), the chapter-number
token is "0Ex", the sanitized name "Ex" zero-padded to width 3 by the
{..:0>3} format spec, and not the sanitized raw name "Ex" used
verbatim as the claim states. -/
theorem fallback_token_padded_cex :
    chapter_name_to_int "ex" = none
      ∧ chapter_num_token false true "ex" none = "0Ex"
      ∧ beautify_path "ex" = "Ex"
      ∧ chapter_num_token false true "ex" none ≠ beautify_path "ex" := by
  refine ⟨by decide, by decide, by decide, by decide⟩

/-- C2 amended: whenever no numeric chapter value is resolved by any
numbering path (not a oneshot; the extra-with-next parse or the
own-name parse returns null), the chapter-number token is the
sanitized raw chapter name left-padded with the character 0 to width 3
(so used verbatim only when it is at least 3 characters long), with
the x1 suffix kept on the extra path. -/
theorem fallback_token_padded (is_extra : Bool) (chapter_name : String)
    (next_name : Option String)
    (h : if is_extra && nextTruthy next_name
      then chapter_name_to_int (next_name.getD "") = none
      else chapter_name_to_int chapter_name = none) :
    chapter_num_token false is_extra chapter_name next_name
      = padLeft0 3 (beautify_path chapter_name)
        ++ (if is_extra && nextTruthy next_name then "x1" else "") := by
  unfold chapter_num_token
  by_cases hx : (is_extra && nextTruthy next_name) = true
  · rw [if_pos hx] at h
    simp only [Bool.false_eq_true, if_false, hx, if_true, h]
    rfl
  · rw [if_neg hx] at h
    simp only [Bool.false_eq_true, if_false, hx, h]
    rfl

/-- C2 amended witness at the extra chapter "ex" with no next
chapter. -/
theorem fallback_token_padded_witness :
    chapter_name_to_int "ex" = none
      ∧ chapter_num_token false false "ex" none
        = padLeft0 3 (beautify_path "ex") ++ "" :=
  ⟨by decide, fallback_token_padded false "ex" none (by decide)⟩

/-- C3: for a non-oneshot extra chapter with a supplied (nonempty)
next-chapter name parsing to n, the chapter-number token is n-1
zero-padded to width 3, with the letter c in front if n-1 < 1000 and d
otherwise, and the suffix x1 behind. -/
theorem extra_next_token (chapter_name s : String) (n : Int)
    (hs : s ≠ "") (hn : chapter_name_to_int s = some n) :
    chapter_num_token false true chapter_name (some s)
      = (if n - 1 < 1000 then "c" else "d") ++ padLeft0 3 (toString (n - 1)) ++ "x1" := by
  unfold chapter_num_token
  have ht : nextTruthy (some s) = true := by
    unfold nextTruthy
    simpa using hs
  simp only [Bool.false_eq_true, if_false, Bool.true_and, ht, if_true, Option.getD_some, hn]

/-- C3 witness: with next-chapter name "#6" the token is "c005x1". -/
theorem extra_next_token_witness :
    ("#6" : String) ≠ ""
      ∧ chapter_name_to_int "#6" = some 6
      ∧ chapter_num_token false true "ex" (some "#6") = "c005x1" :=
  ⟨by decide, by decide,
    (extra_next_token "ex" "#6" 6 (by decide) (by decide)).trans (by decide)⟩

/-- C10: for a non-oneshot extra chapter whose supplied (nonempty)
next-chapter name does not parse, the x1 suffix set on the extra path
is kept, appended after the padded fallback token built from the
chapter's own sanitized name. -/
theorem extra_unparsed_next_keeps_x1 (chapter_name s : String)
    (hs : s ≠ "") (hn : chapter_name_to_int s = none) :
    chapter_num_token false true chapter_name (some s)
      = padLeft0 3 (beautify_path chapter_name) ++ "x1" := by
  unfold chapter_num_token
  have ht : nextTruthy (some s) = true := by
    unfold nextTruthy
    simpa using hs
  simp only [Bool.false_eq_true, if_false, Bool.true_and, ht, if_true, Option.getD_some, hn]
  exact empty_append_str _

/-- C10 witness: extra chapter "ex" with unparseable next name "abc"
yields "0Exx1". -/
theorem extra_unparsed_next_keeps_x1_witness :
    ("abc" : String) ≠ ""
      ∧ chapter_name_to_int "abc" = none
      ∧ chapter_num_token false true "ex" (some "abc") = "0Exx1" :=
  ⟨by decide, by decide,
    (extra_unparsed_next_keeps_x1 "ex" "abc" (by decide) (by decide)).trans (by decide)⟩

/-- C4: the chapter prefix carries the "(year)" segment exactly when
the local calendar year of the start timestamp is at most the current
year; with a future year the segment is omitted entirely while the
trailing "(web)" is still appended. -/
theorem year_segment (title_name chapter_name : String)
    (is_os is_ex lang_eng : Bool) (lang : String)
    (localYear : Int → Int) (start_ts curYear : Int) (next_name : Option String) :
    format_chapter_head title_name chapter_name is_os is_ex lang_eng lang
        localYear start_ts curYear next_name
      = joinSp ([title_name]
          ++ (if lang_eng then [] else ["[" ++ lang ++ "]"])
          ++ ["-", chapter_num_token is_os is_ex chapter_name next_name])
        ++ " "
        ++ (if localYear start_ts ≤ curYear
            then "(" ++ toString (localYear start_ts) ++ ") (web)" else "(web)") := by
  unfold format_chapter_head
  by_cases hy : localYear start_ts ≤ curYear
  · by_cases hl : lang_eng = true <;>
      simp [hl, hy, joinSp, String.append_assoc]
  · by_cases hl : lang_eng = true <;>
      simp [hl, hy, joinSp, String.append_assoc]

/-- C7: chapter_name_to_int strips all leading hash characters and
parses the remainder with Python int(), returning the integer on
success and null (never an error: the function is total) otherwise;
"#042" parses to 42, "ex" to null, and "##7" shows that every leading
hash is stripped. -/
theorem chapter_name_to_int_spec :
    (∀ name : String, chapter_name_to_int name
        = pyParseInt (String.mk (name.data.dropWhile (fun c => c == '#'))))
      ∧ chapter_name_to_int "#042" = some 42
      ∧ chapter_name_to_int "ex" = none
      ∧ chapter_name_to_int "##7" = some 7 :=
  ⟨fun _ => rfl, by decide, by decide, by decide⟩

/-- C8: format_page_name renders a single page as p plus the page
number zero-padded to 3 digits, and a range as the padded start and
stop bounds joined by a dash; all leading dots of the extension are
stripped and exactly one dot is re-added; the result is exactly
"(prefix) - p(page) (suffix).(ext)"; with range(3, 5) the name
contains "p003-005". -/
theorem format_page_name_spec :
    (∀ (ctx : NamingCtx) (n : Int) (ext : String),
      format_page_name ctx (.single n) ext
        = ctx.chapter_pre ++ " - " ++ ("p" ++ padLeft0 3 (toString n)) ++ " "
          ++ ctx.chapter_suf ++ "." ++ String.mk (ext.data.dropWhile (fun c => c == '.')))
      ∧ (∀ (ctx : NamingCtx) (a b : Int) (ext : String),
        format_page_name ctx (.span a b) ext
          = ctx.chapter_pre ++ " - "
            ++ ("p" ++ padLeft0 3 (toString a) ++ "-" ++ padLeft0 3 (toString b)) ++ " "
            ++ ctx.chapter_suf ++ "." ++ String.mk (ext.data.dropWhile (fun c => c == '.')))
      ∧ format_page_name
          (exporter_base_init "d" ⟨"T", true, "English"⟩ ⟨"#1", "", 0⟩ none false
            (fun _ => 2020) 2024) (.span 3 5) ".jpg"
        = "T - c001 (2020) (web) - p003-005 [fr3akyphantom].jpg" :=
  ⟨fun _ _ _ => rfl, fun _ _ _ _ => rfl, by decide⟩

/-- C5: an archive exporter constructed while the destination archive
file already exists has the skip-all flag set; skip_image is true for
every index; every add_image call leaves the in-memory archive buffer,
the rest of the state and the on-disk filesystem unchanged; and close
returns without writing, leaving the existing file (and the whole
filesystem) unchanged and the finalize count at zero. -/
theorem cbz_preexisting_skip_all
    (destination : String) (title : TitleMeta) (chapter : ChapterMeta)
    (next_chapter : Option ChapterMeta) (act : Bool)
    (localYear : Int → Int) (curYear : Int) (fs : FS) (s0 : CBZState)
    (hs0 : s0 = CBZExporter_init destination title chapter next_chapter act
      localYear curYear fs)
    (h : (fsLookup fs s0.path).isSome = true) :
    s0.skip_all_images = true
      ∧ (∀ ix, CBZExporter_skip_image s0 ix = true)
      ∧ (∀ (image_data : List Nat) (ix : PageIx),
          CBZExporter_add_image s0 fs image_data ix = (s0, fs))
      ∧ CBZExporter_close s0 fs = (s0, fs)
      ∧ s0.finalizeCount = 0 := by
  have hskip : s0.skip_all_images = true := by
    rw [hs0]
    unfold CBZExporter_init
    simp only
    rw [hs0] at h
    unfold CBZExporter_init at h
    simpa using h
  refine ⟨hskip, fun _ => hskip, ?_, ?_, ?_⟩
  · intro image_data ix
    unfold CBZExporter_add_image
    rw [if_pos hskip]
  · unfold CBZExporter_close
    rw [if_pos hskip]
  · rw [hs0]
    rfl

/-- C5 witness: a concrete archive exporter built while fsW already
holds the destination archive. -/
theorem cbz_preexisting_skip_all_witness :
    (fsLookup fsW cbzSkipW.path).isSome = true
      ∧ (cbzSkipW.skip_all_images = true
        ∧ (∀ ix, CBZExporter_skip_image cbzSkipW ix = true)
        ∧ (∀ (image_data : List Nat) (ix : PageIx),
            CBZExporter_add_image cbzSkipW fsW image_data ix = (cbzSkipW, fsW))
        ∧ CBZExporter_close cbzSkipW fsW = (cbzSkipW, fsW)
        ∧ cbzSkipW.finalizeCount = 0) :=
  ⟨by decide,
    cbz_preexisting_skip_all "d" titleW chapterW none false yearW 2024 fsW
      cbzSkipW rfl (by decide)⟩

/-- C6: a document exporter's close creates no file (and changes
nothing at all, on disk or in the state) when the skip-all flag is set
or zero images were buffered, so it never writes a zero-page
document. -/
theorem pdf_close_empty_no_file (s : PDFState) (fs : FS)
    (h : s.skip_all_images = true ∨ s.images = []) :
    PDFExporter_close s fs = (s, fs) := by
  unfold PDFExporter_close
  have hcond : (s.skip_all_images || s.images.isEmpty) = true := by
    rcases h with h | h <;> simp [h]
  rw [if_pos hcond]

/-- C6 witness: a concrete document exporter with an empty buffer. -/
theorem pdf_close_empty_no_file_witness :
    (pdfFreshW.skip_all_images = true ∨ pdfFreshW.images = [])
      ∧ PDFExporter_close pdfFreshW [] = (pdfFreshW, []) :=
  ⟨Or.inr (by decide), pdf_close_empty_no_file pdfFreshW [] (Or.inr (by decide))⟩

/-- C9 counterexample: on a fresh (non-skip-all) archive exporter,
calling close twice performs the expensive finalize twice, not at most
once: the instrumentation counter reaches 2. -/
theorem close_twice_finalizes_twice_cex :
    cbzFreshW.skip_all_images = false
      ∧ (CBZExporter_close cbzFreshW []).1.finalizeCount = 1
      ∧ (CBZExporter_close (CBZExporter_close cbzFreshW []).1
          (CBZExporter_close cbzFreshW []).2).1.finalizeCount = 2 := by
  refine ⟨by decide, by decide, by decide⟩

/-- C9 amended: with skip-all set, any close call (hence also a second
one) is a complete no-op for both the archive and the document
exporter; but the finalize is not otherwise guarded: each close call
performs it again whenever skip-all is unset (and, for the document
exporter, the image buffer is nonempty), so across repeated close
calls it runs once per non-skipped call, not at most once. -/
theorem close_skip_noop_and_finalize_per_close
    (c : CBZState) (p : PDFState) (fs fsp : FS)
    (hc : c.skip_all_images = true) (hp : p.skip_all_images = true) :
    CBZExporter_close c fs = (c, fs)
      ∧ PDFExporter_close p fsp = (p, fsp)
      ∧ (∀ (c2 : CBZState) (g : FS),
          (CBZExporter_close c2 g).1.finalizeCount
            = c2.finalizeCount + (if c2.skip_all_images then 0 else 1))
      ∧ (∀ (p2 : PDFState) (g : FS),
          (PDFExporter_close p2 g).1.finalizeCount
            = p2.finalizeCount + (if p2.skip_all_images || p2.images.isEmpty then 0 else 1)) := by
  refine ⟨?_, ?_, ?_, ?_⟩
  · unfold CBZExporter_close
    rw [if_pos hc]
  · unfold PDFExporter_close
    rw [if_pos (by simp [hp])]
  · intro c2 g
    unfold CBZExporter_close
    by_cases h2 : c2.skip_all_images = true
    · rw [if_pos h2, if_pos h2]
      simp
    · rw [if_neg h2, if_neg h2]
  · intro p2 g
    unfold PDFExporter_close
    by_cases h2 : (p2.skip_all_images || p2.images.isEmpty) = true
    · rw [if_pos h2, if_pos h2]
      simp
    · rw [if_neg h2, if_neg h2]

/-- C9 amended witness: concrete exporters with skip-all set. -/
theorem close_skip_noop_witness :
    cbzSkipW.skip_all_images = true
      ∧ pdfSkipW.skip_all_images = true
      ∧ (CBZExporter_close cbzSkipW [] = (cbzSkipW, [])
        ∧ PDFExporter_close pdfSkipW [] = (pdfSkipW, [])
        ∧ (∀ (c2 : CBZState) (g : FS),
            (CBZExporter_close c2 g).1.finalizeCount
              = c2.finalizeCount + (if c2.skip_all_images then 0 else 1))
        ∧ (∀ (p2 : PDFState) (g : FS),
            (PDFExporter_close p2 g).1.finalizeCount
              = p2.finalizeCount + (if p2.skip_all_images || p2.images.isEmpty then 0 else 1))) :=
  ⟨by decide, by decide,
    close_skip_noop_and_finalize_per_close cbzSkipW pdfSkipW [] [] (by decide) (by decide)⟩

end Mloader
